import Mathlib

set_option linter.unusedSectionVars false

/-!
Shallow embedding of the `Vector<T>` container of `src/code/vector.h` and the
observations the specification talks about.  The C++ object carries three
fields: `_size`, `_capacity` and a raw buffer pointer `contents`.  We model the
buffer as a total function `Nat → α`; freshly allocated slots (`new T[n]`)
hold the default value of `α`, which is never observed through the public
interface on live indices.  Element writes `contents[i] = v` become `upd`,
and each C++ loop becomes a structurally recursive function on the number of
remaining iterations, with the loop index recovered from the fuel.  Functions
that may `throw std::out_of_range` return `Option` (`none` = throw; in the
source every throw happens before any mutation, so the object is unchanged).
-/

namespace STL

variable {α : Type} [Inhabited α]

/-- One element write, `contents[i] = v`. -/
def upd (f : Nat → α) (i : Nat) (v : α) : Nat → α :=
  fun j => if j = i then v else f j

/-- A fresh allocation `new T[...]` followed by the copy loop
`for (i = 0; i < n; i++) new_contents[i] = contents[i];` used by the copy
constructor, `operator=`, `reserve` and `shrink_to_fit`. -/
def copyFirst (n : Nat) (f : Nat → α) : Nat → α :=
  fun i => if i < n then f i else default

/-- The fill loop `for (i = a; i < a + fuel; i++) contents[i] = value;`
(used by the sized constructor, `resize`, `assign` and counted `insert`),
fuel = number of iterations left. -/
def fillRange (buf : Nat → α) (a : Nat) (value : α) : Nat → (Nat → α)
  | 0 => buf
  | k + 1 => fillRange (upd buf a value) (a + 1) value k

/-- The element-copy loop `for (it = first; it != last; it++, i++)
contents[i] = *it;` over an iterator range, modelled as a list. -/
def writeList (buf : Nat → α) (i : Nat) : List α → (Nat → α)
  | [] => buf
  | v :: rest => writeList (upd buf i v) (i + 1) rest

/-- The shift loop of single-element `insert`:
`for (i = _size; i > position; i--) contents[i] = contents[i-1];`.
Fuel `k` counts the remaining iterations; the current index is
`position + k`, so the first call with `k = _size - position` starts at
`i = _size` exactly as the source does. -/
def shiftRight (buf : Nat → α) (position : Nat) : Nat → (Nat → α)
  | 0 => buf
  | k + 1 => shiftRight (upd buf (position + k + 1) (buf (position + k))) position k

/-- The shift loop of counted / ranged `insert`:
`for (i = _size; i > position; i--) contents[i + count - 1] = contents[i - 1];`.
With `i = position + k + 1` the write index `i + count - 1` is
`position + k + count` and the read index `i - 1` is `position + k`. -/
def shiftRightBy (buf : Nat → α) (position count : Nat) : Nat → (Nat → α)
  | 0 => buf
  | k + 1 => shiftRightBy (upd buf (position + k + count) (buf (position + k))) position count k

/-- The shift loop of single-element `erase`:
`for (i = position; i < _size - 1; i++) contents[i] = contents[i+1];`,
phrased with the running index `i` and the remaining iteration count. -/
def shiftLeft (buf : Nat → α) (i : Nat) : Nat → (Nat → α)
  | 0 => buf
  | k + 1 => shiftLeft (upd buf i (buf (i + 1))) (i + 1) k

/-- The copy loop of ranged `erase`:
`j = first; for (i = last; i < _size; i++, j++) contents[j] = contents[i];`. -/
def copyRangeLoop (buf : Nat → α) (j i : Nat) : Nat → (Nat → α)
  | 0 => buf
  | k + 1 => copyRangeLoop (upd buf j (buf i)) (j + 1) (i + 1) k

/-- The state of a `Vector<T>` object: `_size`, `_capacity` and the buffer. -/
structure Vector (α : Type) where
  _size : Nat
  _capacity : Nat
  contents : Nat → α

namespace Vector

variable {α : Type} [Inhabited α]

/-- `Vector(size_t size = 0, const T& value = T())`: sets
`_size = _capacity = size`, allocates when `size > 0` and fills the first
`size` slots with `value`. -/
def mkSized (size : Nat) (value : α) : Vector α :=
  ⟨size, size, fillRange (fun _ => default) 0 value size⟩

/-- `Vector(initializer_list<T> list)`: `_size = _capacity = list.size()`,
elements copied in order. -/
def ofList (l : List α) : Vector α :=
  ⟨l.length, l.length, writeList (fun _ => default) 0 l⟩

/-- `Vector(const Vector& other)`: copies `_size` and `_capacity`, allocates
and copies the first `_size` elements. -/
def copyCtor (other : Vector α) : Vector α :=
  ⟨other._size, other._capacity, copyFirst other._size other.contents⟩

/-- `operator=(const Vector& other)`: frees the old buffer, copies `_size`
and `_capacity`, allocates `_capacity` slots and copies the first `_size`
elements.  (The self-assignment guard returns the object unchanged, which
coincides with this result when `other` is the object itself.) -/
def assign_from (other : Vector α) : Vector α :=
  ⟨other._size, other._capacity, copyFirst other._size other.contents⟩

/-- `at(size_t index)`: throws `out_of_range` when `index >= _size`,
otherwise yields `contents[index]`. -/
def at? (v : Vector α) (index : Nat) : Option α :=
  if index ≥ v._size then none else some (v.contents index)

/-- `size()`. -/
def size (v : Vector α) : Nat := v._size

/-- `capacity()`. -/
def capacity (v : Vector α) : Nat := v._capacity

/-- `reserve(size_t new_capacity)`: when `new_capacity >= _capacity`,
reallocates to `new_capacity` slots, copies the `_size` live elements and
sets `_capacity = new_capacity`; otherwise does nothing. -/
def reserve (v : Vector α) (new_capacity : Nat) : Vector α :=
  if new_capacity ≥ v._capacity then
    ⟨v._size, new_capacity, copyFirst v._size v.contents⟩
  else v

/-- `shrink_to_fit()`: when `_capacity > _size`, reallocates to exactly
`_size` slots, copies the live elements and sets `_capacity = _size`. -/
def shrink_to_fit (v : Vector α) : Vector α :=
  if v._capacity > v._size then
    ⟨v._size, v._size, copyFirst v._size v.contents⟩
  else v

/-- `resize(size_t new_size, const T& value = T())`: when growing, reserves
`new_size` and fills `[_size, new_size)` with `value`; then sets
`_size = new_size` unconditionally. -/
def resize (v : Vector α) (new_size : Nat) (value : α) : Vector α :=
  let v1 :=
    if new_size > v._size then
      let r := v.reserve new_size
      ⟨r._size, r._capacity, fillRange r.contents v._size value (new_size - v._size)⟩
    else v
  ⟨new_size, v1._capacity, v1.contents⟩

/-- `assign(size_t count, const T& value)`: reserves `count`, overwrites the
first `count` slots with `value`, sets `_size = count`. -/
def assign (v : Vector α) (count : Nat) (value : α) : Vector α :=
  let r := v.reserve count
  ⟨count, r._capacity, fillRange r.contents 0 value count⟩

/-- `assign(It first, It last)`: reserves the range length, copies the range
into the buffer starting at index 0, sets `_size` to the range length. -/
def assign_range (v : Vector α) (l : List α) : Vector α :=
  let r := v.reserve l.length
  ⟨l.length, r._capacity, writeList r.contents 0 l⟩

/-- `push_back(const T& value)`: when full, reserves 2 if `_capacity == 0`
and `_capacity * 2` otherwise; then writes at index `_size` and increments
`_size`. -/
def push_back (v : Vector α) (value : α) : Vector α :=
  let r :=
    if v._size = v._capacity then
      if v._capacity = 0 then v.reserve 2 else v.reserve (v._capacity * 2)
    else v
  ⟨r._size + 1, r._capacity, upd r.contents r._size value⟩

/-- `pop_back()`: decrements `_size` when positive, otherwise does nothing. -/
def pop_back (v : Vector α) : Vector α :=
  if v._size > 0 then ⟨v._size - 1, v._capacity, v.contents⟩ else v

/-- `insert(size_t position, const T& value)`: throws when
`position > _size`; delegates to `push_back` when `position == _size`;
otherwise doubles the capacity when full, shifts `[position, _size)` one
slot right, writes `value` at `position` and increments `_size`. -/
def insert (v : Vector α) (position : Nat) (value : α) : Option (Vector α) :=
  if position > v._size then none
  else if position = v._size then some (v.push_back value)
  else
    let r := if v._size = v._capacity then v.reserve (v._capacity * 2) else v
    some ⟨r._size + 1, r._capacity,
      upd (shiftRight r.contents position (r._size - position)) position value⟩

/-- `insert(size_t position, size_t count, const T& value)`: throws when
`position > _size`; reserves `count + _size` when the capacity is short,
shifts the tail right by `count` and fills `[position, position + count)`
with `value`; `_size += count`. -/
def insert_count (v : Vector α) (position count : Nat) (value : α) : Option (Vector α) :=
  if position > v._size then none
  else
    let r := if v._capacity < count + v._size then v.reserve (count + v._size) else v
    some ⟨r._size + count, r._capacity,
      fillRange (shiftRightBy r.contents position count (r._size - position)) position value count⟩

/-- `insert(size_t position, It first, It last)`: throws when
`position > _size`; with `d` the range length, reserves `d + _size` when
short, shifts the tail right by `d` and writes the range at `position`;
`_size += d`. -/
def insert_range (v : Vector α) (position : Nat) (l : List α) : Option (Vector α) :=
  if position > v._size then none
  else
    let d := l.length
    let r := if v._capacity < d + v._size then v.reserve (d + v._size) else v
    some ⟨r._size + d, r._capacity,
      writeList (shiftRightBy r.contents position d (r._size - position)) position l⟩

/-- `erase(size_t position)`: throws when `position >= _size`; shifts
`[position + 1, _size)` one slot left and decrements `_size`. -/
def erase (v : Vector α) (position : Nat) : Option (Vector α) :=
  if position ≥ v._size then none
  else
    some ⟨v._size - 1, v._capacity,
      shiftLeft v.contents position (v._size - 1 - position)⟩

/-- `erase(size_t first, size_t last)`: throws when `first >= _size`,
`last > _size` or `last < first`; otherwise copies `[last, _size)` down to
start at `first` and subtracts `last - first` from `_size`. -/
def erase_range (v : Vector α) (first last : Nat) : Option (Vector α) :=
  if first ≥ v._size ∨ last > v._size ∨ last < first then none
  else
    some ⟨v._size - (last - first), v._capacity,
      copyRangeLoop v.contents first last (v._size - last)⟩

/-- `clear()`: sets `_size = 0`, everything else untouched. -/
def clear (v : Vector α) : Vector α :=
  ⟨0, v._capacity, v.contents⟩

/-- `swap(Vector& other)` on two distinct objects: saves this object's three
fields in temporaries, copies `other`'s fields in, then stores the
temporaries into `other`.  Returns the pair (this, other) after the call. -/
def swap (a other : Vector α) : Vector α × Vector α :=
  let temp_data := a.contents
  let temp_size := a._size
  let temp_capacity := a._capacity
  let a1 : Vector α := ⟨other._size, other._capacity, other.contents⟩
  let other1 : Vector α := ⟨temp_size, temp_capacity, temp_data⟩
  (a1, other1)

/-- `a.swap(a)`: the aliased call.  `other` is the very same object, so the
three assignments `this->f = other->f` read the object's own fields back
(⟨`_a1`⟩), and the three assignments `other->f = temp_f` then store the saved
originals. -/
def selfSwap (a : Vector α) : Vector α :=
  let temp_data := a.contents
  let temp_size := a._size
  let temp_capacity := a._capacity
  let _a1 : Vector α := ⟨a._size, a._capacity, a.contents⟩
  ⟨temp_size, temp_capacity, temp_data⟩

/-- `emplace_back(Args&&... args)`: same growth rule as `push_back`, then a
placement-new of the constructed element at index `_size`; `_size++`. -/
def emplace_back (v : Vector α) (value : α) : Vector α :=
  let r :=
    if v._size = v._capacity then
      if v._capacity = 0 then v.reserve 2 else v.reserve (v._capacity * 2)
    else v
  ⟨r._size + 1, r._capacity, upd r.contents r._size value⟩

/-- `emplace(size_t pos, Args&&... args)` as written in the source: throws
when `pos > _size`; when `pos == _size` it calls `emplace_back` and — with no
`return` statement — falls through to the general path, which then calls
`reserve(_capacity > 0 ? capacity * 2 : 1)` (the source spells the argument
`capacity * 2`, naming the member function; we read it as `_capacity * 2`,
the only way the expression type-checks), shifts `[pos, _size)` right,
constructs at `pos` and increments `_size` again. -/
def emplace (v : Vector α) (pos : Nat) (value : α) : Option (Vector α) :=
  if pos > v._size then none
  else
    let v1 := if pos = v._size then v.emplace_back value else v
    let r := v1.reserve (if v1._capacity > 0 then v1._capacity * 2 else 1)
    some ⟨r._size + 1, r._capacity,
      upd (shiftRight r.contents pos (r._size - pos)) pos value⟩

end Vector

/-- A finite sequence of `push_back` calls applied in order. -/
def pushAll (v : Vector α) (l : List α) : Vector α :=
  l.foldl Vector.push_back v

/-- The states reachable from a constructed `Vector` by the public
operations the specification lists: the three constructors, `operator=`,
`resize`, `reserve`, `shrink_to_fit`, both `assign` overloads, `push_back`,
`pop_back`, the three `insert` overloads, both `erase` overloads, `clear`
and `swap` (both participants, and the aliased self-swap).  `at` reads but
never mutates, so it contributes no step.  An operation that throws mutates
nothing, so a failed (`none`) call leaves the object at a state already in
the relation. -/
inductive Reachable : Vector α → Prop where
  | mkSized (n : Nat) (value : α) : Reachable (Vector.mkSized n value)
  | ofList (l : List α) : Reachable (Vector.ofList l)
  | copyCtor {v : Vector α} : Reachable v → Reachable (Vector.copyCtor v)
  | assignFrom {v w : Vector α} : Reachable v → Reachable w → Reachable (Vector.assign_from w)
  | resize {v : Vector α} : Reachable v → ∀ (n : Nat) (value : α), Reachable (v.resize n value)
  | reserve {v : Vector α} : Reachable v → ∀ n : Nat, Reachable (v.reserve n)
  | shrink {v : Vector α} : Reachable v → Reachable v.shrink_to_fit
  | assignFill {v : Vector α} : Reachable v → ∀ (count : Nat) (value : α), Reachable (v.assign count value)
  | assignRange {v : Vector α} : Reachable v → ∀ l : List α, Reachable (v.assign_range l)
  | push {v : Vector α} : Reachable v → ∀ value : α, Reachable (v.push_back value)
  | pop {v : Vector α} : Reachable v → Reachable v.pop_back
  | insertOne {v w : Vector α} : Reachable v → ∀ (pos : Nat) (value : α), v.insert pos value = some w → Reachable w
  | insertCount {v w : Vector α} : Reachable v → ∀ (pos count : Nat) (value : α), v.insert_count pos count value = some w → Reachable w
  | insertRange {v w : Vector α} : Reachable v → ∀ (pos : Nat) (l : List α), v.insert_range pos l = some w → Reachable w
  | eraseOne {v w : Vector α} : Reachable v → ∀ pos : Nat, v.erase pos = some w → Reachable w
  | eraseRange {v w : Vector α} : Reachable v → ∀ a b : Nat, v.erase_range a b = some w → Reachable w
  | clear {v : Vector α} : Reachable v → Reachable v.clear
  | swapLeft {v w : Vector α} : Reachable v → Reachable w → Reachable (Vector.swap v w).1
  | swapRight {v w : Vector α} : Reachable v → Reachable w → Reachable (Vector.swap v w).2
  | selfSwap {v : Vector α} : Reachable v → Reachable v.selfSwap

/-- The state of the spec's concrete scenario after
`push_back(1); push_back(2); push_back(3)` from a default-constructed
vector of integers. -/
def scenario1 : Vector Int :=
  (((Vector.mkSized 0 default).push_back 1).push_back 2).push_back 3

/-- ... after `resize(5, 100)`. -/
def scenario2 : Vector Int := scenario1.resize 5 100

/-- ... after `shrink_to_fit()`. -/
def scenario3 : Vector Int := scenario2.shrink_to_fit

/-- ... after `resize(2)` (the fill value defaults to `T()`). -/
def scenario4 : Vector Int := scenario3.resize 2 default

/-- ... after a second `shrink_to_fit()`. -/
def scenario5 : Vector Int := scenario4.shrink_to_fit

/-- ... after `clear()`. -/
def scenario6 : Vector Int := scenario5.clear

/-! ### Pointwise characterisation of the loops -/

theorem upd_spec (f : Nat → α) (i : Nat) (v : α) (j : Nat) :
    upd f i v j = if j = i then v else f j := rfl

theorem copyFirst_spec (n : Nat) (f : Nat → α) (j : Nat) :
    copyFirst n f j = if j < n then f j else default := rfl

theorem fillRange_spec (k : Nat) :
    ∀ (buf : Nat → α) (a : Nat) (value : α) (j : Nat),
      fillRange buf a value k j = if a ≤ j ∧ j < a + k then value else buf j := by
  induction k with
  | zero =>
    intro buf a value j
    rw [fillRange, if_neg (by omega)]
  | succ k ih =>
    intro buf a value j
    rw [fillRange, ih]
    simp only [upd]
    split_ifs <;> first | rfl | omega

theorem writeList_spec (l : List α) :
    ∀ (buf : Nat → α) (i j : Nat),
      writeList buf i l j =
        if i ≤ j ∧ j < i + l.length then l.getD (j - i) default else buf j := by
  induction l with
  | nil =>
    intro buf i j
    rw [writeList, if_neg (by simp)]
  | cons v rest ih =>
    intro buf i j
    rw [writeList, ih]
    simp only [upd, List.length_cons]
    split_ifs with h1 h2 h2 <;> try omega
    · have hj : j - i = (j - (i + 1)) + 1 := by omega
      rw [hj, List.getD_cons_succ]
    · have hj : j = i := by omega
      subst hj
      simp
    · rfl

theorem shiftRight_spec (k : Nat) :
    ∀ (buf : Nat → α) (position j : Nat),
      shiftRight buf position k j =
        if position < j ∧ j ≤ position + k then buf (j - 1) else buf j := by
  induction k with
  | zero =>
    intro buf position j
    rw [shiftRight, if_neg (by omega)]
  | succ k ih =>
    intro buf position j
    rw [shiftRight, ih]
    simp only [upd]
    split_ifs with h1 h2 h2 h3 <;> try omega
    · rfl
    · have hj : j - 1 = position + k := by omega
      rw [hj]
    · rfl

theorem shiftRightBy_spec (k : Nat) :
    ∀ (buf : Nat → α) (position count j : Nat),
      shiftRightBy buf position count k j =
        if position + count ≤ j ∧ j < position + count + k then buf (j - count) else buf j := by
  induction k with
  | zero =>
    intro buf position count j
    rw [shiftRightBy, if_neg (by omega)]
  | succ k ih =>
    intro buf position count j
    rw [shiftRightBy, ih]
    simp only [upd]
    split_ifs with h1 h2 h2 h3 <;> try omega
    · rfl
    · have hj : j - count = position + k := by omega
      rw [hj]
    · rfl

theorem shiftLeft_spec (k : Nat) :
    ∀ (buf : Nat → α) (i j : Nat),
      shiftLeft buf i k j = if i ≤ j ∧ j < i + k then buf (j + 1) else buf j := by
  induction k with
  | zero =>
    intro buf i j
    rw [shiftLeft, if_neg (by omega)]
  | succ k ih =>
    intro buf i j
    rw [shiftLeft, ih]
    simp only [upd]
    split_ifs with h1 h2 h2 h3 <;> try omega
    · rfl
    · have hj : j + 1 = i + 1 := by omega
      rw [hj]
    · rfl

theorem copyRangeLoop_spec (k : Nat) :
    ∀ (buf : Nat → α) (j i m : Nat), j ≤ i →
      copyRangeLoop buf j i k m =
        if j ≤ m ∧ m < j + k then buf (i + (m - j)) else buf m := by
  induction k with
  | zero =>
    intro buf j i m _
    rw [copyRangeLoop, if_neg (by omega)]
  | succ k ih =>
    intro buf j i m hji
    rw [copyRangeLoop, ih _ _ _ _ (by omega)]
    simp only [upd]
    split_ifs with h1 h2 h2 h3 <;> try omega
    · have hm : i + 1 + (m - (j + 1)) = i + (m - j) := by omega
      rw [hm]
    · have hm : i + (m - j) = i := by omega
      rw [hm]
    · rfl

/-! ### Facts about the individual operations -/

namespace Vector

variable {α : Type} [Inhabited α]

theorem size_reserve (v : Vector α) (n : Nat) : (v.reserve n)._size = v._size := by
  rw [reserve]
  split <;> rfl

theorem capacity_reserve (v : Vector α) (n : Nat) :
    (v.reserve n)._capacity = if n ≥ v._capacity then n else v._capacity := by
  rw [reserve]
  split <;> rfl

theorem contents_reserve (v : Vector α) (n i : Nat) (h : i < v._size) :
    (v.reserve n).contents i = v.contents i := by
  rw [reserve]
  split
  · exact if_pos h
  · rfl

theorem size_push_back (v : Vector α) (x : α) : (v.push_back x)._size = v._size + 1 := by
  simp only [push_back]
  split_ifs <;> simp [size_reserve]

theorem capacity_push_back (v : Vector α) (x : α) :
    (v.push_back x)._capacity =
      if v._size = v._capacity then (if v._capacity = 0 then 2 else v._capacity * 2)
      else v._capacity := by
  simp only [push_back]
  split_ifs with h1 h2
  · rw [capacity_reserve, if_pos (by omega)]
  · rw [capacity_reserve, if_pos (by omega)]
  · rfl

theorem contents_push_back (v : Vector α) (x : α) (i : Nat) (h : i ≤ v._size) :
    (v.push_back x).contents i = if i = v._size then x else v.contents i := by
  simp only [push_back]
  split_ifs with h1 h2 h3 h4 h5
  · rw [upd_spec, size_reserve, if_pos h3]
  · rw [upd_spec, size_reserve, if_neg h3]
    exact contents_reserve v 2 i (by omega)
  · rw [upd_spec, size_reserve, if_pos h4]
  · rw [upd_spec, size_reserve, if_neg h4]
    exact contents_reserve v (v._capacity * 2) i (by omega)
  · rw [upd_spec, if_pos h5]
  · rw [upd_spec, if_neg h5]

theorem inv_push_back (v : Vector α) (x : α) (h : v._size ≤ v._capacity) :
    (v.push_back x)._size ≤ (v.push_back x)._capacity := by
  rw [size_push_back, capacity_push_back]
  split_ifs <;> omega

theorem inv_resize (v : Vector α) (n : Nat) (x : α) (h : v._size ≤ v._capacity) :
    (v.resize n x)._size ≤ (v.resize n x)._capacity := by
  simp only [resize]
  split_ifs with h1
  · rw [capacity_reserve]
    split_ifs <;> omega
  · omega

theorem inv_assign (v : Vector α) (count : Nat) (x : α) (h : v._size ≤ v._capacity) :
    (v.assign count x)._size ≤ (v.assign count x)._capacity := by
  simp only [assign]
  rw [capacity_reserve]
  split_ifs <;> omega

theorem inv_assign_range (v : Vector α) (l : List α) (h : v._size ≤ v._capacity) :
    (v.assign_range l)._size ≤ (v.assign_range l)._capacity := by
  simp only [assign_range]
  rw [capacity_reserve]
  split_ifs <;> omega

theorem inv_insert (v w : Vector α) (pos : Nat) (x : α) (h : v._size ≤ v._capacity)
    (hw : v.insert pos x = some w) : w._size ≤ w._capacity := by
  simp only [insert] at hw
  split_ifs at hw with h1 h2 h3
  · injection hw with hw
    subst hw
    exact inv_push_back v x h
  · injection hw with hw
    subst hw
    dsimp only
    rw [size_reserve, capacity_reserve]
    split_ifs <;> omega
  · injection hw with hw
    subst hw
    dsimp only
    omega

theorem inv_insert_count (v w : Vector α) (pos count : Nat) (x : α)
    (h : v._size ≤ v._capacity) (hw : v.insert_count pos count x = some w) :
    w._size ≤ w._capacity := by
  simp only [insert_count] at hw
  split_ifs at hw with h1 h2
  · injection hw with hw
    subst hw
    dsimp only
    rw [size_reserve, capacity_reserve]
    split_ifs <;> omega
  · injection hw with hw
    subst hw
    dsimp only
    omega

theorem inv_insert_range (v w : Vector α) (pos : Nat) (l : List α)
    (h : v._size ≤ v._capacity) (hw : v.insert_range pos l = some w) :
    w._size ≤ w._capacity := by
  simp only [insert_range] at hw
  split_ifs at hw with h1 h2
  · injection hw with hw
    subst hw
    dsimp only
    rw [size_reserve, capacity_reserve]
    split_ifs <;> omega
  · injection hw with hw
    subst hw
    dsimp only
    omega

theorem inv_erase (v w : Vector α) (pos : Nat) (h : v._size ≤ v._capacity)
    (hw : v.erase pos = some w) : w._size ≤ w._capacity := by
  simp only [erase] at hw
  split_ifs at hw with h1
  injection hw with hw
  subst hw
  dsimp only
  omega

theorem inv_erase_range (v w : Vector α) (a b : Nat) (h : v._size ≤ v._capacity)
    (hw : v.erase_range a b = some w) : w._size ≤ w._capacity := by
  simp only [erase_range] at hw
  split_ifs at hw with h1
  injection hw with hw
  subst hw
  dsimp only
  omega

theorem inv_reserve (v : Vector α) (n : Nat) (h : v._size ≤ v._capacity) :
    (v.reserve n)._size ≤ (v.reserve n)._capacity := by
  rw [size_reserve, capacity_reserve]
  split_ifs <;> omega

theorem inv_shrink (v : Vector α) (h : v._size ≤ v._capacity) :
    v.shrink_to_fit._size ≤ v.shrink_to_fit._capacity := by
  rw [shrink_to_fit]
  split
  · exact Nat.le.refl
  · exact h

theorem inv_pop_back (v : Vector α) (h : v._size ≤ v._capacity) :
    v.pop_back._size ≤ v.pop_back._capacity := by
  rw [pop_back]
  split
  · dsimp only
    omega
  · exact h

end Vector

theorem reachable_inv {v : Vector α} (h : Reachable v) : v._size ≤ v._capacity := by
  induction h with
  | mkSized n value => exact Nat.le.refl
  | ofList l => exact Nat.le.refl
  | copyCtor _ ih => exact ih
  | assignFrom _ _ _ ihw => exact ihw
  | resize _ n value ih => exact Vector.inv_resize _ n value ih
  | reserve _ n ih => exact Vector.inv_reserve _ n ih
  | shrink _ ih => exact Vector.inv_shrink _ ih
  | assignFill _ count value ih => exact Vector.inv_assign _ count value ih
  | assignRange _ l ih => exact Vector.inv_assign_range _ l ih
  | push _ value ih => exact Vector.inv_push_back _ value ih
  | pop _ ih => exact Vector.inv_pop_back _ ih
  | insertOne _ pos value hw ih => exact Vector.inv_insert _ _ pos value ih hw
  | insertCount _ pos count value hw ih => exact Vector.inv_insert_count _ _ pos count value ih hw
  | insertRange _ pos l hw ih => exact Vector.inv_insert_range _ _ pos l ih hw
  | eraseOne _ pos hw ih => exact Vector.inv_erase _ _ pos ih hw
  | eraseRange _ a b hw ih => exact Vector.inv_erase_range _ _ a b ih hw
  | clear _ _ => exact Nat.zero_le _
  | swapLeft _ _ _ ihw => exact ihw
  | swapRight _ _ ihv _ => exact ihv
  | selfSwap _ ih => exact ih

theorem pushAll_nil (v : Vector α) : pushAll v [] = v := rfl

theorem pushAll_cons (v : Vector α) (x : α) (l : List α) :
    pushAll v (x :: l) = pushAll (v.push_back x) l := rfl

theorem pushAll_size (l : List α) :
    ∀ v : Vector α, (pushAll v l)._size = v._size + l.length := by
  induction l with
  | nil => intro v; rw [pushAll_nil, List.length_nil]; omega
  | cons x rest ih =>
    intro v
    rw [pushAll_cons, ih, Vector.size_push_back, List.length_cons]
    omega

theorem pushAll_contents (l : List α) :
    ∀ (v : Vector α) (i : Nat), i < v._size + l.length →
      (pushAll v l).contents i =
        if i < v._size then v.contents i else l.getD (i - v._size) default := by
  induction l with
  | nil =>
    intro v i hi
    rw [List.length_nil] at hi
    rw [pushAll_nil, if_pos (by omega)]
  | cons x rest ih =>
    intro v i hi
    rw [pushAll_cons, ih (v.push_back x) i
      (by rw [Vector.size_push_back, List.length_cons] at *; omega)]
    rw [Vector.size_push_back]
    by_cases h2 : i < v._size + 1
    · rw [if_pos h2, Vector.contents_push_back v x i (by omega)]
      by_cases h3 : i = v._size
      · subst h3
        rw [if_pos rfl, if_neg (by omega), Nat.sub_self, List.getD_cons_zero]
      · rw [if_neg h3, if_pos (by omega)]
    · rw [if_neg h2, if_neg (by omega)]
      have h4 : i - v._size = (i - (v._size + 1)) + 1 := by omega
      rw [h4, List.getD_cons_succ]

theorem insert_some (v : Vector α) (pos : Nat) (x : α) (h : pos ≤ v._size) :
    ∃ w, v.insert pos x = some w ∧ w._size = v._size + 1 ∧
      ∀ i, i ≤ v._size →
        w.contents i =
          if i < pos then v.contents i else if i = pos then x else v.contents (i - 1) := by
  by_cases h2 : pos = v._size
  · refine ⟨v.push_back x, ?_, Vector.size_push_back v x, ?_⟩
    · simp only [Vector.insert]
      rw [if_neg (by omega), if_pos h2]
    · intro i hi
      rw [Vector.contents_push_back v x i hi]
      subst h2
      split_ifs <;> first | rfl | omega
  · have hps : pos < v._size := by omega
    by_cases h3 : v._size = v._capacity
    · refine ⟨⟨(v.reserve (v._capacity * 2))._size + 1, (v.reserve (v._capacity * 2))._capacity,
        upd (shiftRight (v.reserve (v._capacity * 2)).contents pos
          ((v.reserve (v._capacity * 2))._size - pos)) pos x⟩, ?_, ?_, ?_⟩
      · simp only [Vector.insert]
        rw [if_neg (by omega), if_neg h2, if_pos h3]
      · dsimp only
        rw [Vector.size_reserve]
      · intro i hi
        dsimp only
        rw [upd_spec, shiftRight_spec, Vector.size_reserve]
        split_ifs <;>
          first
          | rfl
          | omega
          | exact Vector.contents_reserve v _ _ (by omega)
    · refine ⟨⟨v._size + 1, v._capacity,
        upd (shiftRight v.contents pos (v._size - pos)) pos x⟩, ?_, rfl, ?_⟩
      · simp only [Vector.insert]
        rw [if_neg (by omega), if_neg h2, if_neg h3]
      · intro i hi
        dsimp only
        rw [upd_spec, shiftRight_spec]
        split_ifs <;> first | rfl | omega

theorem erase_some (v : Vector α) (pos : Nat) (h : pos < v._size) :
    ∃ w, v.erase pos = some w ∧ w._size = v._size - 1 ∧
      ∀ i, i < v._size - 1 →
        w.contents i = if i < pos then v.contents i else v.contents (i + 1) := by
  refine ⟨⟨v._size - 1, v._capacity, shiftLeft v.contents pos (v._size - 1 - pos)⟩, ?_, rfl, ?_⟩
  · simp only [Vector.erase]
    rw [if_neg (by omega)]
  · intro i hi
    dsimp only
    rw [shiftLeft_spec]
    split_ifs <;> first | rfl | omega

/-! ### The claims -/

/-- C1: for every finite sequence of values pushed via `push_back` into a
default-constructed (empty) vector, `size()` afterwards returns the number
of pushed values and, for every `i` below it, `at(i)` returns the i-th
pushed value (in push order) without raising an error. -/
theorem push_back_sequence_spec (l : List Int) :
    (pushAll (Vector.mkSized 0 default) l).size = l.length ∧
    ∀ (i : Nat) (h : i < l.length),
      (pushAll (Vector.mkSized 0 default) l).at? i = some (l.get ⟨i, h⟩) := by
  have h0 : (Vector.mkSized 0 (default : Int))._size = 0 := rfl
  have hsz : (pushAll (Vector.mkSized 0 (default : Int)) l)._size = l.length := by
    rw [pushAll_size]
    omega
  refine ⟨hsz, ?_⟩
  intro i h
  simp only [Vector.at?]
  rw [if_neg (by omega)]
  rw [pushAll_contents l (Vector.mkSized 0 default) i (by omega)]
  rw [if_neg (by omega)]
  have h7 : i - (Vector.mkSized 0 (default : Int))._size = i := by omega
  rw [h7, List.getD_eq_get l default h]

/-- C1 witness: pushing `[1, 2, 3]` and reading index 1 yields 2. -/
theorem push_back_sequence_spec_witness :
    (pushAll (Vector.mkSized 0 (default : Int)) [1, 2, 3]).at? 1 = some 2 := by
  have h := (push_back_sequence_spec [1, 2, 3]).2 1 (by decide)
  simpa using h

/-- C2 (the `DynArray` half, which the code supports): `pop_back()` on a
vector of size 0 raises no error and leaves `size()` equal to 0.  The
`Stack::pop`/`Stack::top` half of the claim is decided by
`Vector::empty()`, whose body compares the member function `size` itself
with 0 and is ill-formed C++, so the stack operations cannot even be
instantiated; see RESULTS. -/
theorem pop_back_empty_noop (v : Vector Int) (h : v.size = 0) : v.pop_back.size = 0 := by
  have h' : v._size = 0 := h
  show v.pop_back._size = 0
  rw [Vector.pop_back, if_neg (by omega)]
  exact h'

/-- C2 witness: a default-constructed vector. -/
theorem pop_back_empty_noop_witness : (Vector.mkSized 0 (0 : Int)).pop_back.size = 0 :=
  pop_back_empty_noop (Vector.mkSized 0 0) rfl

/-- C4: `push_back` grows the capacity exactly when `length == capacity`,
to 2 when the old capacity was 0 and to exactly twice the old capacity
otherwise; when `length < capacity` (indeed whenever they differ) the
capacity is unchanged. -/
theorem push_back_capacity_policy (v : Vector Int) (x : Int) :
    (v.push_back x).capacity =
      if v.size = v.capacity then (if v.capacity = 0 then 2 else v.capacity * 2)
      else v.capacity :=
  Vector.capacity_push_back v x

/-- C5: `length <= capacity` holds in every state reachable from a
constructed vector by the public operations (constructors, assignment,
`resize`, `reserve`, `shrink_to_fit`, `assign`, `push_back`, `pop_back`,
`insert`, `erase`, `clear`, `swap`; `at` never mutates). -/
theorem reachable_size_le_capacity (v : Vector Int) (h : Reachable v) :
    v.size ≤ v.capacity :=
  reachable_inv h

/-- C5 witness: the state after one `push_back` on an empty vector. -/
theorem reachable_size_le_capacity_witness :
    ((Vector.mkSized 0 (0 : Int)).push_back 5).size ≤
      ((Vector.mkSized 0 (0 : Int)).push_back 5).capacity :=
  reachable_size_le_capacity _ (Reachable.push (Reachable.mkSized 0 0) 5)

/-- C6: for every `pos ≤ size()`, `insert(pos, x)` succeeds, the subsequent
`erase(pos)` succeeds, and the final state has the original size and the
original value at every index. -/
theorem insert_erase_roundtrip (v : Vector Int) (pos : Nat) (x : Int) (h : pos ≤ v.size) :
    ∃ w w', v.insert pos x = some w ∧ w.erase pos = some w' ∧
      w'.size = v.size ∧ ∀ i, w'.at? i = v.at? i := by
  have h' : pos ≤ v._size := h
  obtain ⟨w, hw, hws, hwc⟩ := insert_some v pos x h'
  obtain ⟨w', hw', hw's, hw'c⟩ := erase_some w pos (by omega)
  refine ⟨w, w', hw, hw', ?_, ?_⟩
  · show w'._size = v._size
    omega
  · intro i
    simp only [Vector.at?]
    by_cases hi : i ≥ v._size
    · rw [if_pos (by omega), if_pos hi]
    · rw [if_neg (by omega), if_neg hi]
      rw [hw'c i (by omega)]
      by_cases h5 : i < pos
      · rw [if_pos h5, hwc i (by omega), if_pos h5]
      · rw [if_neg h5, hwc (i + 1) (by omega)]
        rw [if_neg (by omega), if_neg (by omega)]
        have h6 : i + 1 - 1 = i := by omega
        rw [h6]

/-- C6 witness: inserting 99 at position 1 of `[10, 20, 30]` succeeds. -/
theorem insert_erase_roundtrip_witness :
    ((Vector.ofList [(10 : Int), 20, 30]).insert 1 99).isSome = true := by
  obtain ⟨w, w', hw, -, -, -⟩ :=
    insert_erase_roundtrip (Vector.ofList [(10 : Int), 20, 30]) 1 99 (by decide)
  rw [hw]
  rfl

/-- C7: `erase(a, b)` fails with out-of-range exactly when `a >= length`,
`b > length` or `b < a`; on success the elements previously at
`[b, length)` now begin at `a`, elements before `a` are untouched, and the
length shrinks by `b - a`; in particular `erase(i, i)` at a valid `i` is a
no-op. -/
theorem erase_range_contract (v : Vector Int) (a b : Nat) :
    (v.erase_range a b = none ↔ (a ≥ v.size ∨ b > v.size ∨ b < a)) ∧
    (a < v.size → b ≤ v.size → a ≤ b →
      ∃ w, v.erase_range a b = some w ∧
        w.size = v.size - (b - a) ∧
        (∀ i, i < a → w.at? i = v.at? i) ∧
        (∀ t, b + t < v.size → w.at? (a + t) = v.at? (b + t)) ∧
        (a = b → w.size = v.size ∧ ∀ i, w.at? i = v.at? i)) := by
  constructor
  · simp only [Vector.erase_range]
    split_ifs with hc
    · exact iff_of_true rfl hc
    · exact iff_of_false (by simp) hc
  · intro h1 h2 h3
    have h1' : a < v._size := h1
    have h2' : b ≤ v._size := h2
    refine ⟨⟨v._size - (b - a), v._capacity, copyRangeLoop v.contents a b (v._size - b)⟩,
      ?_, rfl, ?_, ?_, ?_⟩
    · simp only [Vector.erase_range]
      rw [if_neg (by omega)]
    · intro i hi
      simp only [Vector.at?]
      rw [copyRangeLoop_spec (v._size - b) v.contents a b i h3]
      rw [if_neg (by omega), if_neg (by omega), if_neg (by omega)]
    · intro t ht
      have ht' : b + t < v._size := ht
      simp only [Vector.at?]
      rw [copyRangeLoop_spec (v._size - b) v.contents a b (a + t) h3]
      rw [if_pos (by omega : a ≤ a + t ∧ a + t < a + (v._size - b))]
      rw [if_neg (by omega), if_neg (by omega)]
      have he : b + (a + t - a) = b + t := by omega
      rw [he]
    · intro hab
      subst hab
      constructor
      · show v._size - (a - a) = v._size
        omega
      · intro i
        simp only [Vector.at?]
        have h6 : v._size - (a - a) = v._size := by omega
        rw [h6]
        rw [copyRangeLoop_spec (v._size - a) v.contents a a i (Nat.le.refl)]
        by_cases hi : a ≤ i ∧ i < a + (v._size - a)
        · rw [if_pos hi]
          have he : a + (i - a) = i := by omega
          rw [he]
        · rw [if_neg hi]

/-- C7 witness: `erase(1, 3)` on `[10, 20, 30, 40, 50]` succeeds. -/
theorem erase_range_contract_witness :
    ((Vector.ofList [(10 : Int), 20, 30, 40, 50]).erase_range 1 3).isSome = true := by
  obtain ⟨w, hw, -⟩ :=
    (erase_range_contract (Vector.ofList [(10 : Int), 20, 30, 40, 50]) 1 3).2
      (by decide) (by decide) (by decide)
  rw [hw]
  rfl

/-- C8: evaluated at the failing input, `emplace(0, 5)` on an empty vector
(the `pos == length` case) yields size 2 — the element is placed twice
because the source falls through after calling `emplace_back` — while
`emplace_back(5)` alone yields size 1, so the two are not equivalent. -/
theorem emplace_at_end_diverges :
    ((Vector.mkSized 0 (0 : Int)).emplace 0 5).map Vector.size = some 2 ∧
    ((Vector.mkSized 0 (0 : Int)).emplace_back 5).size = 1 := by decide

/-- C9: the spec's concrete scenario, step by step. -/
theorem concrete_scenario :
    scenario1.size = 3 ∧ scenario1.at? 0 = some 1 ∧ scenario1.at? 1 = some 2 ∧
      scenario1.at? 2 = some 3 ∧ 3 ≤ scenario1.capacity ∧
      scenario2.size = 5 ∧ scenario2.at? 0 = some 1 ∧ scenario2.at? 1 = some 2 ∧
      scenario2.at? 2 = some 3 ∧ scenario2.at? 3 = some 100 ∧ scenario2.at? 4 = some 100 ∧
      scenario3.capacity = 5 ∧
      scenario4.size = 2 ∧ scenario4.at? 0 = some 1 ∧ scenario4.at? 1 = some 2 ∧
      scenario4.capacity = 5 ∧
      scenario5.capacity = 2 ∧
      scenario6.size = 0 ∧ scenario6.capacity = 2 := by decide

/-- C10: the aliased self-swap `a.swap(a)` leaves the state unchanged. -/
theorem self_swap_id (v : Vector Int) : v.selfSwap = v := rfl

end STL
